import Mathlib

/-!
Shallow embedding of the tbdd BDD-lifecycle engine (package `tbdd`):
the phase sequencer `newI`, the variant fan-out loop, and the `GWT`/`WT`
builders, together with an event-trace semantics of the abstract test
context (`testingT`): `Run` records the scope name and runs the body,
`Error` records a soft failure and continues, `Fatalf` records a hard
failure after which the source code explicitly returns (in the variant
loop it explicitly continues).

User-supplied callbacks (Arrange, Describe, Act, Assert, hooks, the
variant generator) are modelled as pure Lean functions acting on the
values the Go code hands them through pointers: a callback receives the
current values and returns the updated ones, exactly mirroring which
fields the Go struct exposes as pointers (mutable) versus values
(read-only).
-/

namespace Tbdd

/-- Observable events of one engine run, in execution order. -/
inductive Event : Type where
  | scopeGiven (name : String) : Event
  | scopeWhen (name : String) : Event
  | scopeThen (name : String) : Event
  | softFail (msg : String) : Event
  | hardFail (msg : String) : Event
  | arrangeRun : Event
  | givenSetupRun : Event
  | describeRun : Event
  | actRun : Event
  | assertRun : Event
  | hookAfterArrange (arrangeRan nilGivenFunc emptyGivenString : Bool) : Event
  | hookAfterGiven (givenRan : Bool) : Event
  | hookAfterAct : Event
  | hookAfterAssert : Event
deriving DecidableEq, Repr

/-- Argument struct of the AfterArrange hook (`AfterArrange[T]` in the source).
Only `TC` is behind a pointer, so only it can be mutated: the hook returns
the updated struct and the engine reads back `TC`. -/
structure AfterArrange (T : Type) where
  TC : T
  ArrangeRan : Bool
  NilGivenFunc : Bool
  EmptyGivenString : Bool

/-- Argument struct of the AfterGiven hook (`AfterGiven[T]`): `TC`, `Given`,
`When`, `Then` are behind pointers (mutable), `GivenRan` is a value. -/
structure AfterGiven (T : Type) where
  TC : T
  Given : String
  When : String
  Then : String
  GivenRan : Bool

/-- Argument struct of the AfterAct hook (`AfterAct[T,R]`): both fields mutable. -/
structure AfterAct (T R : Type) where
  TC : T
  Result : R

/-- Argument struct of the AfterAssert hook (`AfterAssert[T,R]`): both fields mutable. -/
structure AfterAssert (T R : Type) where
  TC : T
  Result : R

/-- Argument struct of the Assert function (`Assert[T,R]`): read-only values. -/
structure AssertIn (T R : Type) where
  TC : T
  Result : R

/-- Argument struct of the Describe function (`Describe[T]`): read-only values. -/
structure DescribeIn (T : Type) where
  TC : T
  Given : String
  When : String
  Then : String

/-- Result of a Describe call (`DescribeResponse`). -/
structure DescribeResponse where
  When : String
  Then : String

/-- The four optional post-phase hooks (`Hooks[T,R]`). -/
structure Hooks (T R : Type) where
  AfterArrange : Option (AfterArrange T → AfterArrange T)
  AfterGiven : Option (AfterGiven T → AfterGiven T)
  AfterAct : Option (AfterAct T R → AfterAct T R)
  AfterAssert : Option (AfterAssert T R → AfterAssert T R)

/-- Hooks with every field absent (zero value of `Hooks[T,R]`). -/
def noHooks (T R : Type) : Hooks T R := ⟨none, none, none, none⟩

/-- Argument struct of the Arrange function (`Arrange[T,R]`): `TC`, `Hooks`,
`Describe`, `Act`, `Assert`, `When`, `Then` are behind pointers (mutable);
`Given` is passed by value as a seed. -/
structure ArrangeIn (T R : Type) where
  TC : T
  Hooks : Hooks T R
  Describe : Option (DescribeIn T → DescribeResponse)
  Act : Option (T → R)
  Assert : Option (AssertIn T R → Unit)
  Given : String
  When : String
  Then : String

/-- What an Arrange call produces: the final values of the mutable cells it
was handed (`cfg`), plus its two return values: the final given label and
the optional setup callback (which may mutate the test case through the
pointer it captured). -/
structure ArrangeRet (T R : Type) where
  cfg : ArrangeIn T R
  given : String
  givenFn : Option (T → T)

/-- A variant entry produced by the `Variants` generator (`TestVariant[T]`). -/
structure TestVariant (T : Type) where
  TC : T
  Kind : String
  SkipTC : Bool
  SkipCloneTC : Bool

/-- The lifecycle descriptor (`lifecycle[T,R]` / exported alias `Lifecycle`). -/
structure Lifecycle (T R : Type) where
  Given : String
  When : String
  Then : String
  hooks : Hooks T R
  TC : T
  CloneTC : Option (T → T)
  Variants : Option (T → List (TestVariant T))
  Arrange : Option (ArrangeIn T R → ArrangeRet T R)
  Describe : Option (DescribeIn T → DescribeResponse)
  Act : Option (T → R)
  Assert : Option (AssertIn T R → Unit)

/-- Soft-failure message for an empty When at the validation gate. -/
def whenEmptyMsg : String := "When string of BDD test must not be empty"

/-- Soft-failure message for an empty Then at the validation gate. -/
def thenEmptyMsg : String := "Then string of BDD test must not be empty"

/-- Soft-failure message for a nil Act at the validation gate. -/
def actNilMsg : String := "Act function of BDD test is not defined"

/-- Soft-failure message for a nil Assert at the validation gate. -/
def assertNilMsg : String := "Assert function of BDD test is not defined"

/-- Rendered `Fatalf` message of the aggregate validation-gate failure. -/
def notConfiguredMsg (pfx : String) : String :=
  "when+then not run: BDD test not configured properly (prefix = \"" ++ pfx ++ "\")"

/-- Rendered `Fatalf` message when Arrange returns a nil given function. -/
def nilGivenMsg (pfx : String) : String :=
  "test setup not run: Arrange returned a nil given function (prefix = \"" ++ pfx ++ "\")"

/-- Rendered `Fatalf` message when Arrange returns an empty Given string. -/
def emptyGivenMsg (pfx : String) : String :=
  "test setup not run: Arrange function returned an empty Given string (prefix = \"" ++ pfx ++ "\")"

/-- Rendered `Fatalf` message for a variant with an empty Kind at index `i`. -/
def variantKindMsg (i : Nat) : String :=
  "BDD configuration error: test case variant at index " ++ toString i ++ " has no Kind detail"

/-- Prefix composition at the top of the replay closure `f`: fold in the
table-test index when it is non-negative, then append the separator when
the result is non-empty. -/
def composePfx (tti : Int) (p0 : String) : String :=
  let p := if 0 ≤ tti then (if p0 = "" then toString tti else toString tti ++ "/" ++ p0) else p0
  if p = "" then p else p ++ "/"

/-- The `hasGivenPhase` computation: Arrange configured or a non-empty Given
label present at the start of the replay. -/
def hasGivenPhase {T R : Type} (b : Lifecycle T R) : Bool :=
  b.Arrange.isSome || decide (b.Given ≠ "")

/-- The method `lifecycle.afterArrange`: dispatch the AfterArrange hook if
configured, reading the possibly mutated test case back out. -/
def afterArrange {T R : Type} (b : Lifecycle T R) (tc : T)
    (arrangeRan nilGivenFunc emptyGivenString : Bool) : List Event × T :=
  match b.hooks.AfterArrange with
  | some h =>
      let o := h ⟨tc, arrangeRan, nilGivenFunc, emptyGivenString⟩
      ([Event.hookAfterArrange arrangeRan nilGivenFunc emptyGivenString], o.TC)
  | none => ([], tc)

/-- Dispatch of the AfterGiven hook: the hook can mutate `TC`, `Given`,
`When`, `Then` through the pointers it receives. -/
def afterGivenDispatch {T R : Type} (b : Lifecycle T R) (tc : T) (givenRan : Bool) :
    List Event × Lifecycle T R × T :=
  match b.hooks.AfterGiven with
  | some h =>
      let o := h ⟨tc, b.Given, b.When, b.Then, givenRan⟩
      ([Event.hookAfterGiven givenRan], { b with Given := o.Given, When := o.When, Then := o.Then }, o.TC)
  | none => ([], b, tc)

/-- The Describe step at the top of the base `test` closure: when configured,
run Describe on the current state and overwrite `When`/`Then` with its
response. -/
def describeStep {T R : Type} (b : Lifecycle T R) (tc : T) : Lifecycle T R × List Event :=
  match b.Describe with
  | some d =>
      let r := d ⟨tc, b.Given, b.When, b.Then⟩
      ({ b with When := r.When, Then := r.Then }, [Event.describeRun])
  | none => (b, [])

/-- The four soft checks of the validation gate, in source order: each
violated check contributes one soft-failure event and checking continues. -/
def gateSoftEvs {T R : Type} (b : Lifecycle T R) : List Event :=
  (if b.When = "" then [Event.softFail whenEmptyMsg] else []) ++
  (if b.Then = "" then [Event.softFail thenEmptyMsg] else []) ++
  (if b.Act.isNone then [Event.softFail actNilMsg] else []) ++
  (if b.Assert.isNone then [Event.softFail assertNilMsg] else [])

/-- The base `test` closure of the replay: Describe, the validation gate
(four ordered soft checks then one aggregate hard failure), then the
when-scope with Act, AfterAct, the nested then-scope with Assert and
AfterAssert. `hg` is the replay's `hasGivenPhase` value. -/
def coreTest {T R : Type} (b0 : Lifecycle T R) (tc : T) (pfx : String) (hg : Bool) :
    List Event × T :=
  let p := describeStep b0 tc
  let b := p.1
  if b.When = "" ∨ b.Then = "" ∨ b.Act.isNone = true ∨ b.Assert.isNone = true then
    (p.2 ++ gateSoftEvs b ++ [Event.hardFail (notConfiguredMsg pfx)], tc)
  else
    match b.Act, b.Assert with
    | some act, some asrt =>
        let whenStr0 := "when " ++ b.When
        let whenStr := if pfx ≠ "" ∧ hg = false then pfx ++ whenStr0 else whenStr0
        let result := act tc
        let q1 : List Event × T × R :=
          match b.hooks.AfterAct with
          | some h =>
              let o := h ⟨tc, result⟩
              ([Event.hookAfterAct], o.TC, o.Result)
          | none => ([], tc, result)
        let _ := asrt ⟨q1.2.1, q1.2.2⟩
        let q2 : List Event × T × R :=
          match b.hooks.AfterAssert with
          | some h =>
              let o := h ⟨q1.2.1, q1.2.2⟩
              ([Event.hookAfterAssert], o.TC, o.Result)
          | none => ([], q1.2.1, q1.2.2)
        (p.2 ++ [Event.scopeWhen whenStr, Event.actRun] ++ q1.1 ++
          [Event.scopeThen ("then " ++ b.Then), Event.assertRun] ++ q2.1, q2.2.1)
    | _, _ => (p.2, tc)

/-- The argument struct built for the Arrange call inside the replay. -/
def arrangeInput {T R : Type} (b : Lifecycle T R) (tc : T) : ArrangeIn T R :=
  ⟨tc, b.hooks, b.Describe, b.Act, b.Assert, b.Given, b.When, b.Then⟩

/-- Read the mutable cells back out of an Arrange call and install its
returned given label. -/
def arrangeApply {T R : Type} (b : Lifecycle T R) (o : ArrangeRet T R) : Lifecycle T R :=
  { b with hooks := o.cfg.Hooks, Describe := o.cfg.Describe, Act := o.cfg.Act,
           Assert := o.cfg.Assert, When := o.cfg.When, Then := o.cfg.Then,
           Given := o.given }

/-- The given-scope: open the scope named `pfx ++ "given " ++ Given`, run the
setup callback if present, dispatch AfterGiven, then continue into the base
test within this same scope. -/
def givenScope {T R : Type} (b : Lifecycle T R) (tc : T) (pfx : String)
    (gf : Option (T → T)) : List Event × T :=
  let s : List Event × T × Bool :=
    match gf with
    | some g => ([Event.givenSetupRun], g tc, true)
    | none => ([], tc, false)
  let q := afterGivenDispatch b s.2.1 s.2.2
  let c := coreTest q.2.1 q.2.2 pfx true
  (Event.scopeGiven (pfx ++ "given " ++ b.Given) :: (s.1 ++ q.1 ++ c.1), c.2)

/-- One replay of the phase sequencer: the closure `f` of `newI` applied to a
test-case value and a raw naming prefix, then invoked. Returns the trace of
events and the replay's final test-case value. -/
def replay {T R : Type} (b0 : Lifecycle T R) (tti : Int) (tc0 : T) (pfx0 : String) :
    List Event × T :=
  let pfx := composePfx tti pfx0
  if hasGivenPhase b0 then
    match b0.Arrange with
    | some ar =>
        let o := ar (arrangeInput b0 tc0)
        let b1 := arrangeApply b0 o
        let tc1 := o.cfg.TC
        match o.givenFn with
        | none =>
            let q := afterArrange b1 tc1 true true (decide (b1.Given = ""))
            (Event.arrangeRun :: (q.1 ++ [Event.hardFail (nilGivenMsg pfx)]), q.2)
        | some g =>
            let q := afterArrange b1 tc1 true false (decide (b1.Given = ""))
            if b1.Given = "" then
              (Event.arrangeRun :: (q.1 ++ [Event.hardFail (emptyGivenMsg pfx)]), q.2)
            else
              let r := givenScope b1 q.2 pfx (some g)
              (Event.arrangeRun :: (q.1 ++ r.1), r.2)
    | none =>
        let q := afterArrange b0 tc0 false true (decide (b0.Given = ""))
        if b0.Given = "" then
          (q.1 ++ [Event.hardFail (emptyGivenMsg pfx)], q.2)
        else
          let r := givenScope b0 q.2 pfx none
          (q.1 ++ r.1, r.2)
  else
    let q := afterArrange b0 tc0 false true true
    let w := afterGivenDispatch b0 q.2 false
    let c := coreTest w.2.1 w.2.2 pfx false
    (q.1 ++ w.1 ++ c.1, c.2)

/-- The test-case value a non-skipped variant entry contributes: its `TC`,
cloned via `CloneTC` unless `SkipCloneTC` is set. -/
def variantTC {T R : Type} (b : Lifecycle T R) (v : TestVariant T) : T :=
  if v.SkipCloneTC then v.TC
  else match b.CloneTC with
       | some f => f v.TC
       | none => v.TC

/-- The variant walk of the fan-out loop starting at enumeration index `i`:
skip `SkipTC` entries (still counting them), fail on empty `Kind` entries
(the abstract context records and the loop continues), otherwise replay
with the variant's `Kind` as raw prefix. -/
def walkVariantsFrom {T R : Type} (b : Lifecycle T R) (tti : Int) :
    Nat → List (TestVariant T) → List Event
  | _, [] => []
  | i, v :: rest =>
      (if v.SkipTC then []
       else if v.Kind = "" then [Event.hardFail (variantKindMsg i)]
       else (replay b tti (variantTC b v) v.Kind).1) ++
      walkVariantsFrom b tti (i + 1) rest

/-- The base test-case value of the base replay: the captured `TC`, cloned
when `CloneTC` is configured. -/
def baseTC {T R : Type} (b : Lifecycle T R) : T :=
  match b.CloneTC with
  | some f => f b.TC
  | none => b.TC

/-- Result of one full run of the function returned by `newI`. -/
structure RunResult (T : Type) where
  trace : List Event
  variantsSeed : Option T
  baseFinalTC : T

/-- The function returned by `newI`, fully run: capture `TC`, run the base
replay on a (possibly cloned) copy with empty raw prefix, then hand the
untouched captured value to the `Variants` generator and walk its entries. -/
def newI {T R : Type} (b : Lifecycle T R) (tti : Int) : RunResult T :=
  let tc := b.TC
  let r := replay b tti (baseTC b) ""
  match b.Variants with
  | none => ⟨r.1, none, r.2⟩
  | some vf => ⟨r.1 ++ walkVariantsFrom b tti 0 (vf tc), some tc, r.2⟩

/-- The method `new`: `newI` with index `-1`. -/
def newRun {T R : Type} (b : Lifecycle T R) : RunResult T := newI b (-1)

/-- The `GWT` builder: construction-time panics modelled as `Except.error`
with the exact panic message, checks performed in source order. -/
def GWT {T R : Type} (tc : T) (given : String) (givenF : Option (T → T))
    (whn : String) (whenF : Option (T → R))
    (thn : String) (thenF : Option (T → R → Unit)) :
    Except String (Lifecycle T R) :=
  if givenF.isSome ∧ given = "" then
    Except.error ("tbdd.GWT: given description must be non-empty when given function is non-nil")
  else if whn = "" then
    Except.error ("tbdd.GWT: when description must be non-empty")
  else if whenF.isNone then
    Except.error ("tbdd.GWT: when function must be non-nil")
  else if thn = "" then
    Except.error ("tbdd.GWT: then description must be non-empty")
  else if thenF.isNone then
    Except.error ("tbdd.GWT: then function must be non-nil")
  else
    Except.ok
      { Given := given, When := whn, Then := thn,
        hooks := noHooks T R, TC := tc, CloneTC := none, Variants := none,
        Arrange := givenF.map (fun gf => fun cfg => ⟨cfg, given, some (fun v => gf v)⟩),
        Describe := none, Act := whenF,
        Assert := thenF.map (fun tf => fun cfg => tf cfg.TC cfg.Result) }

/-- The `WT` builder: literally `GWT` with an empty given label and a nil
given function. -/
def WT {T R : Type} (tc : T) (whn : String) (whenF : Option (T → R))
    (thn : String) (thenF : Option (T → R → Unit)) :
    Except String (Lifecycle T R) :=
  GWT tc "" none whn whenF thn thenF

/-- Whether an `Except` value is an error (a modelled panic). -/
def isErr {E A : Type} : Except E A → Bool
  | Except.error _ => true
  | Except.ok _ => false

/-- Soft-failure messages of a trace, in order. -/
def softMsgs (tr : List Event) : List String :=
  tr.filterMap fun e =>
    match e with
    | Event.softFail m => some m
    | _ => none

/-- Hard-failure messages of a trace, in order. -/
def hardMsgs (tr : List Event) : List String :=
  tr.filterMap fun e =>
    match e with
    | Event.hardFail m => some m
    | _ => none

/-- Names of all scopes opened in a trace, in order. -/
def scopeNames (tr : List Event) : List String :=
  tr.filterMap fun e =>
    match e with
    | Event.scopeGiven n => some n
    | Event.scopeWhen n => some n
    | Event.scopeThen n => some n
    | _ => none

/-- Tags for the phases and hooks of one replay, used to state ordering
properties. -/
inductive PhaseTag : Type where
  | arrangeT : PhaseTag
  | afterArrangeT : PhaseTag
  | givenSetupT : PhaseTag
  | afterGivenT : PhaseTag
  | describeT : PhaseTag
  | actT : PhaseTag
  | afterActT : PhaseTag
  | assertT : PhaseTag
  | afterAssertT : PhaseTag
deriving DecidableEq, Repr

/-- The phase or hook an event belongs to; scope openings and failures are
not phases. -/
def phaseOf : Event → Option PhaseTag
  | Event.arrangeRun => some PhaseTag.arrangeT
  | Event.hookAfterArrange _ _ _ => some PhaseTag.afterArrangeT
  | Event.givenSetupRun => some PhaseTag.givenSetupT
  | Event.hookAfterGiven _ => some PhaseTag.afterGivenT
  | Event.describeRun => some PhaseTag.describeT
  | Event.actRun => some PhaseTag.actT
  | Event.hookAfterAct => some PhaseTag.afterActT
  | Event.assertRun => some PhaseTag.assertT
  | Event.hookAfterAssert => some PhaseTag.afterAssertT
  | _ => none

/-- The phases of a trace, in execution order. -/
def phasesOf (tr : List Event) : List PhaseTag :=
  tr.filterMap phaseOf

/-- The fixed phase order of one replay: Arrange, AfterArrange, given setup,
AfterGiven, Describe, Act, AfterAct, Assert, AfterAssert. -/
def canonicalPhases : List PhaseTag :=
  [PhaseTag.arrangeT, PhaseTag.afterArrangeT, PhaseTag.givenSetupT, PhaseTag.afterGivenT,
   PhaseTag.describeT, PhaseTag.actT, PhaseTag.afterActT, PhaseTag.assertT,
   PhaseTag.afterAssertT]

/-!
Shared helper lemmas.
-/

theorem phasesOf_append (a b : List Event) : phasesOf (a ++ b) = phasesOf a ++ phasesOf b :=
  List.filterMap_append a b phaseOf

theorem walkVariantsFrom_append {T R : Type} (b : Lifecycle T R) (tti : Int)
    (n : Nat) (pre post : List (TestVariant T)) :
    walkVariantsFrom b tti n (pre ++ post) =
      walkVariantsFrom b tti n pre ++ walkVariantsFrom b tti (n + pre.length) post := by
  induction pre generalizing n with
  | nil => simp [walkVariantsFrom]
  | cons v rest ih =>
      have h2 : n + 1 + rest.length = n + (rest.length + 1) := by omega
      simp only [List.cons_append, walkVariantsFrom, List.length_cons, List.append_assoc,
        List.append_eq]
      rw [ih (n + 1), h2]

theorem describeStep_snd {T R : Type} (b : Lifecycle T R) (tc : T) :
    (describeStep b tc).2 = if b.Describe.isSome then [Event.describeRun] else [] := by
  cases h : b.Describe <;> simp [describeStep, h]

theorem mem_ite_singleton {α : Type} {e x : α} {c : Prop} [Decidable c]
    (h : e ∈ (if c then [x] else [])) : e = x := by
  split at h <;> simp_all

/-- The name of the when-scope a (gate-passing) core test opens: prefixed
with the composed prefix exactly when the prefix is non-empty and there is
no given phase. -/
def coreWhenStr {T R : Type} (b : Lifecycle T R) (tc : T) (pfx : String) (hg : Bool) : String :=
  if pfx ≠ "" ∧ hg = false then pfx ++ ("when " ++ (describeStep b tc).1.When)
  else "when " ++ (describeStep b tc).1.When

/-- Shape of the core-test trace: either the validation gate fails and the
trace is the Describe event, the ordered soft failures, and the one hard
failure; or the gate passes and the trace is the Describe event, the
when-scope, Act, the optional AfterAct dispatch, the then-scope, Assert,
and the optional AfterAssert dispatch. -/
theorem coreTest_shape {T R : Type} (b0 : Lifecycle T R) (tc : T) (pfx : String) (hg : Bool) :
    (coreTest b0 tc pfx hg).1 =
        (describeStep b0 tc).2 ++ gateSoftEvs (describeStep b0 tc).1 ++
          [Event.hardFail (notConfiguredMsg pfx)] ∨
    (∃ q1ev q2ev, (q1ev = [] ∨ q1ev = [Event.hookAfterAct]) ∧
      (q2ev = [] ∨ q2ev = [Event.hookAfterAssert]) ∧
      (coreTest b0 tc pfx hg).1 =
        (describeStep b0 tc).2 ++
          [Event.scopeWhen (coreWhenStr b0 tc pfx hg), Event.actRun] ++ q1ev ++
          [Event.scopeThen ("then " ++ (describeStep b0 tc).1.Then), Event.assertRun] ++
          q2ev) := by
  simp only [coreTest]
  split
  · exact Or.inl rfl
  · right
    rename_i hgate
    rcases hA : (describeStep b0 tc).1.Act with _ | act
    · exact absurd hA (by simpa using fun h2 => hgate (Or.inr (Or.inr (Or.inl (by simp [h2])))))
    rcases hS : (describeStep b0 tc).1.Assert with _ | asrt
    · exact absurd hS (by simpa using fun h2 => hgate (Or.inr (Or.inr (Or.inr (by simp [h2])))))
    simp only [hA, hS]
    rcases hAA : (describeStep b0 tc).1.hooks.AfterAct with _ | f1 <;>
      rcases hAS : (describeStep b0 tc).1.hooks.AfterAssert with _ | f2
    · refine ⟨[], [], Or.inl rfl, Or.inl rfl, ?_⟩
      simp [hAA, hAS, coreWhenStr]
    · refine ⟨[], [Event.hookAfterAssert], Or.inl rfl, Or.inr rfl, ?_⟩
      simp [hAA, hAS, coreWhenStr]
    · refine ⟨[Event.hookAfterAct], [], Or.inr rfl, Or.inl rfl, ?_⟩
      simp [hAA, hAS, coreWhenStr]
    · refine ⟨[Event.hookAfterAct], [Event.hookAfterAssert], Or.inr rfl, Or.inr rfl, ?_⟩
      simp [hAA, hAS, coreWhenStr]

theorem gateSoftEvs_mem {T R : Type} (b : Lifecycle T R) (e : Event)
    (h : e ∈ gateSoftEvs b) :
    e = Event.softFail whenEmptyMsg ∨ e = Event.softFail thenEmptyMsg ∨
    e = Event.softFail actNilMsg ∨ e = Event.softFail assertNilMsg := by
  simp only [gateSoftEvs, List.mem_append] at h
  rcases h with ((h | h) | h) | h
  · exact Or.inl (mem_ite_singleton h)
  · exact Or.inr (Or.inl (mem_ite_singleton h))
  · exact Or.inr (Or.inr (Or.inl (mem_ite_singleton h)))
  · exact Or.inr (Or.inr (Or.inr (mem_ite_singleton h)))

theorem coreTest_scopeGiven_not_mem {T R : Type} (b : Lifecycle T R) (tc : T)
    (pfx : String) (hg : Bool) (s : String) :
    Event.scopeGiven s ∉ (coreTest b tc pfx hg).1 := by
  intro h
  rcases coreTest_shape b tc pfx hg with hsh | ⟨q1, q2, hq1, hq2, hsh⟩ <;>
    rw [hsh, describeStep_snd] at h
  · simp only [List.mem_append, List.mem_singleton] at h
    rcases h with (h | h) | h
    · exact absurd (mem_ite_singleton h) (by simp)
    · rcases gateSoftEvs_mem _ _ h with h | h | h | h <;> simp_all
    · simp_all
  · rcases hq1 with hq1 | hq1 <;> rcases hq2 with hq2 | hq2 <;> subst hq1 <;> subst hq2 <;>
      simp only [List.mem_append, List.mem_cons, List.not_mem_nil, List.mem_singleton,
        or_false, false_or] at h <;>
      rcases h with h | h <;>
      first
        | exact absurd (mem_ite_singleton h) (by simp)
        | simp_all

theorem coreTest_scopeWhen_eq {T R : Type} (b : Lifecycle T R) (tc : T)
    (pfx : String) (hg : Bool) (s : String)
    (h : Event.scopeWhen s ∈ (coreTest b tc pfx hg).1) :
    s = coreWhenStr b tc pfx hg := by
  rcases coreTest_shape b tc pfx hg with hsh | ⟨q1, q2, hq1, hq2, hsh⟩ <;>
    rw [hsh, describeStep_snd] at h
  · simp only [List.mem_append, List.mem_singleton] at h
    rcases h with (h | h) | h
    · exact absurd (mem_ite_singleton h) (by simp)
    · rcases gateSoftEvs_mem _ _ h with h | h | h | h <;> simp_all
    · simp_all
  · rcases hq1 with hq1 | hq1 <;> rcases hq2 with hq2 | hq2 <;> subst hq1 <;> subst hq2 <;>
      simp only [List.mem_append, List.mem_cons, List.not_mem_nil, List.mem_singleton,
        or_false, false_or] at h <;>
      rcases h with h | h <;>
      first
        | exact absurd (mem_ite_singleton h) (by simp)
        | simp_all

theorem phasesOf_gateSoftEvs {T R : Type} (b : Lifecycle T R) :
    phasesOf (gateSoftEvs b) = [] := by
  simp only [gateSoftEvs, phasesOf, List.filterMap_append]
  split_ifs <;> rfl

/-- Tail of the canonical phase order: the phases the base test can emit. -/
def corePhases : List PhaseTag :=
  [PhaseTag.describeT, PhaseTag.actT, PhaseTag.afterActT, PhaseTag.assertT,
   PhaseTag.afterAssertT]

theorem coreTest_phases {T R : Type} (b : Lifecycle T R) (tc : T) (pfx : String) (hg : Bool) :
    List.Sublist (phasesOf (coreTest b tc pfx hg).1) corePhases := by
  rcases coreTest_shape b tc pfx hg with hsh | ⟨q1, q2, hq1, hq2, hsh⟩ <;>
    rw [hsh, describeStep_snd]
  · rw [phasesOf_append, phasesOf_append, phasesOf_gateSoftEvs]
    split_ifs <;> simp [phasesOf, phaseOf, corePhases]
  · rcases hq1 with hq1 | hq1 <;> rcases hq2 with hq2 | hq2 <;> subst hq1 <;> subst hq2 <;>
      split_ifs <;>
      simp only [phasesOf, List.filterMap_append, List.filterMap_cons, List.filterMap_nil,
        phaseOf, corePhases] <;>
      decide

theorem afterArrange_evs {T R : Type} (b : Lifecycle T R) (tc : T) (x y z : Bool) :
    (afterArrange b tc x y z).1 = [] ∨
    (afterArrange b tc x y z).1 = [Event.hookAfterArrange x y z] := by
  cases h : b.hooks.AfterArrange <;> simp [afterArrange, h]

theorem afterGivenDispatch_evs {T R : Type} (b : Lifecycle T R) (tc : T) (gr : Bool) :
    (afterGivenDispatch b tc gr).1 = [] ∨
    (afterGivenDispatch b tc gr).1 = [Event.hookAfterGiven gr] := by
  cases h : b.hooks.AfterGiven <;> simp [afterGivenDispatch, h]

theorem afterArrange_phases {T R : Type} (b : Lifecycle T R) (tc : T) (x y z : Bool) :
    List.Sublist (phasesOf (afterArrange b tc x y z).1) [PhaseTag.afterArrangeT] := by
  rcases afterArrange_evs b tc x y z with h | h <;> rw [h]
  · exact List.nil_sublist _
  · exact List.Sublist.refl _

theorem afterGivenDispatch_phases {T R : Type} (b : Lifecycle T R) (tc : T) (gr : Bool) :
    List.Sublist (phasesOf (afterGivenDispatch b tc gr).1) [PhaseTag.afterGivenT] := by
  rcases afterGivenDispatch_evs b tc gr with h | h <;> rw [h]
  · exact List.nil_sublist _
  · exact List.Sublist.refl _

theorem givenScope_phases {T R : Type} (b : Lifecycle T R) (tc : T) (pfx : String)
    (gf : Option (T → T)) :
    List.Sublist (phasesOf (givenScope b tc pfx gf).1)
      ([PhaseTag.givenSetupT, PhaseTag.afterGivenT] ++ corePhases) := by
  have hcomp :
      ∀ (sev : List Event), List.Sublist (phasesOf sev) [PhaseTag.givenSetupT] →
        ∀ (q : List Event × Lifecycle T R × T), List.Sublist (phasesOf q.1) [PhaseTag.afterGivenT] →
          List.Sublist (phasesOf (sev ++ q.1 ++ (coreTest q.2.1 q.2.2 pfx true).1))
            ([PhaseTag.givenSetupT, PhaseTag.afterGivenT] ++ corePhases) := by
    intro sev hs q hq
    rw [phasesOf_append, phasesOf_append]
    have : ([PhaseTag.givenSetupT, PhaseTag.afterGivenT] ++ corePhases) =
        [PhaseTag.givenSetupT] ++ ([PhaseTag.afterGivenT] ++ corePhases) := by simp
    rw [this, List.append_assoc]
    exact List.Sublist.append hs
      (List.Sublist.append hq (coreTest_phases q.2.1 q.2.2 pfx true))
  rcases gf with _ | g <;>
    simp only [givenScope, phasesOf, List.filterMap_cons, phaseOf] <;>
    first
      | exact hcomp [] (List.nil_sublist _) _ (afterGivenDispatch_phases b tc false)
      | exact hcomp [Event.givenSetupRun] (List.Sublist.refl _) _
          (afterGivenDispatch_phases b (g tc) true)

/-- Every replay's phases — Arrange, AfterArrange, given setup, AfterGiven,
Describe, Act, AfterAct, Assert, AfterAssert — occur in the fixed canonical
order: the phase projection of any replay trace is a sublist of
`canonicalPhases`. -/
theorem replay_phases {T R : Type} (b : Lifecycle T R) (tti : Int) (tc : T) (p : String) :
    List.Sublist (phasesOf (replay b tti tc p).1) canonicalPhases := by
  have hcanon : canonicalPhases =
      PhaseTag.arrangeT ::
        ([PhaseTag.afterArrangeT] ++
          ([PhaseTag.givenSetupT, PhaseTag.afterGivenT] ++ corePhases)) := rfl
  simp only [replay]
  split
  · split
    · rename_i ar harr
      split
      · rw [hcanon]
        simp only [phasesOf, List.filterMap_cons, phaseOf]
        refine List.Sublist.cons₂ _ ?_
        rw [List.filterMap_append]
        exact List.Sublist.append (afterArrange_phases _ _ _ _ _) (List.nil_sublist _)
      · split
        · rw [hcanon]
          simp only [phasesOf, List.filterMap_cons, phaseOf]
          refine List.Sublist.cons₂ _ ?_
          rw [List.filterMap_append]
          exact List.Sublist.append (afterArrange_phases _ _ _ _ _) (List.nil_sublist _)
        · rw [hcanon]
          simp only [phasesOf, List.filterMap_cons, phaseOf]
          refine List.Sublist.cons₂ _ ?_
          rw [List.filterMap_append]
          exact List.Sublist.append (afterArrange_phases _ _ _ _ _) (givenScope_phases _ _ _ _)
    · split
      · rw [hcanon, phasesOf_append]
        refine List.Sublist.cons _ ?_
        exact List.Sublist.append (afterArrange_phases _ _ _ _ _) (List.nil_sublist _)
      · rw [hcanon, phasesOf_append]
        refine List.Sublist.cons _ ?_
        exact List.Sublist.append (afterArrange_phases _ _ _ _ _) (givenScope_phases _ _ _ _)
  · rw [hcanon, phasesOf_append, phasesOf_append, List.append_assoc]
    refine List.Sublist.cons _ ?_
    refine List.Sublist.append (afterArrange_phases _ _ _ _ _) ?_
    have hmid : ([PhaseTag.givenSetupT, PhaseTag.afterGivenT] ++ corePhases) =
        PhaseTag.givenSetupT :: ([PhaseTag.afterGivenT] ++ corePhases) := rfl
    rw [hmid]
    refine List.Sublist.cons _ ?_
    exact List.Sublist.append (afterGivenDispatch_phases _ _ _) (coreTest_phases _ _ _ _)

/-- Shape of the given-scope trace: the scope opening named with the raw
prefix and the final Given label, then setup/AfterGiven dispatch events,
then the core test run within the same scope. -/
theorem givenScope_shape {T R : Type} (b : Lifecycle T R) (tc : T) (pfx : String)
    (gf : Option (T → T)) :
    ∃ (mid : List Event) (b1 : Lifecycle T R) (tc1 : T),
      (∀ e ∈ mid, e = Event.givenSetupRun ∨ ∃ gr, e = Event.hookAfterGiven gr) ∧
      (givenScope b tc pfx gf).1 =
        Event.scopeGiven (pfx ++ "given " ++ b.Given) :: (mid ++ (coreTest b1 tc1 pfx true).1) := by
  rcases gf with _ | g <;> rcases hAG : b.hooks.AfterGiven with _ | f
  · exact ⟨[], (afterGivenDispatch b tc false).2.1, (afterGivenDispatch b tc false).2.2,
      by simp, by simp [givenScope, afterGivenDispatch, hAG]⟩
  · refine ⟨[Event.hookAfterGiven false], (afterGivenDispatch b tc false).2.1,
      (afterGivenDispatch b tc false).2.2, ?_, by simp [givenScope, afterGivenDispatch, hAG]⟩
    intro e he
    simp only [List.mem_singleton] at he
    exact Or.inr ⟨false, he⟩
  · exact ⟨[Event.givenSetupRun], (afterGivenDispatch b (g tc) true).2.1,
      (afterGivenDispatch b (g tc) true).2.2, by simp,
      by simp [givenScope, afterGivenDispatch, hAG]⟩
  · refine ⟨[Event.givenSetupRun, Event.hookAfterGiven true],
      (afterGivenDispatch b (g tc) true).2.1, (afterGivenDispatch b (g tc) true).2.2, ?_,
      by simp [givenScope, afterGivenDispatch, hAG]⟩
    intro e he
    simp only [List.mem_cons, List.not_mem_nil, or_false, List.mem_singleton] at he
    rcases he with he | he
    · exact Or.inl he
    · exact Or.inr ⟨true, he⟩

theorem afterArrange_mem {T R : Type} (b : Lifecycle T R) (tc : T) (x y z : Bool) (e : Event)
    (h : e ∈ (afterArrange b tc x y z).1) : e = Event.hookAfterArrange x y z := by
  rcases afterArrange_evs b tc x y z with h1 | h1 <;> rw [h1] at h <;> simp_all

theorem afterGivenDispatch_mem {T R : Type} (b : Lifecycle T R) (tc : T) (gr : Bool)
    (e : Event) (h : e ∈ (afterGivenDispatch b tc gr).1) : e = Event.hookAfterGiven gr := by
  rcases afterGivenDispatch_evs b tc gr with h1 | h1 <;> rw [h1] at h <;> simp_all

theorem givenScope_mem {T R : Type} (b : Lifecycle T R) (tc : T) (pfx : String)
    (gf : Option (T → T)) (e : Event) (h : e ∈ (givenScope b tc pfx gf).1) :
    e = Event.scopeGiven (pfx ++ "given " ++ b.Given) ∨ e = Event.givenSetupRun ∨
    (∃ gr, e = Event.hookAfterGiven gr) ∨
    ∃ (b1 : Lifecycle T R) (tc1 : T), e ∈ (coreTest b1 tc1 pfx true).1 := by
  obtain ⟨mid, b1, tc1, hmid, hsh⟩ := givenScope_shape b tc pfx gf
  rw [hsh] at h
  simp only [List.mem_cons, List.mem_append] at h
  rcases h with h | h | h
  · exact Or.inl h
  · rcases hmid e h with h | ⟨gr, h⟩
    · exact Or.inr (Or.inl h)
    · exact Or.inr (Or.inr (Or.inl ⟨gr, h⟩))
  · exact Or.inr (Or.inr (Or.inr ⟨b1, tc1, h⟩))

theorem replay_scopeGiven_mem {T R : Type} (b : Lifecycle T R) (tti : Int) (tc : T)
    (p s : String) (h : Event.scopeGiven s ∈ (replay b tti tc p).1) :
    ∃ g, s = composePfx tti p ++ "given " ++ g := by
  simp only [replay] at h
  split at h
  · split at h
    · rename_i ar harr
      split at h
      · exfalso
        simp only [List.mem_cons, List.mem_append, List.mem_singleton] at h
        rcases h with h | h | h
        · exact absurd h (by simp)
        · exact absurd (afterArrange_mem _ _ _ _ _ _ h) (by simp)
        · exact absurd h (by simp)
      · split at h
        · exfalso
          simp only [List.mem_cons, List.mem_append, List.mem_singleton] at h
          rcases h with h | h | h
          · exact absurd h (by simp)
          · exact absurd (afterArrange_mem _ _ _ _ _ _ h) (by simp)
          · exact absurd h (by simp)
        · simp only [List.mem_cons, List.mem_append] at h
          rcases h with h | h | h
          · exact absurd h (by simp)
          · exact absurd (afterArrange_mem _ _ _ _ _ _ h) (by simp)
          · rcases givenScope_mem _ _ _ _ _ h with h | h | ⟨gr, h⟩ | ⟨b1, tc1, h⟩
            · exact ⟨_, by simpa using h⟩
            · exact absurd h (by simp)
            · exact absurd h (by simp)
            · exact absurd h (coreTest_scopeGiven_not_mem _ _ _ _ _)
    · split at h
      · exfalso
        simp only [List.mem_append, List.mem_singleton] at h
        rcases h with h | h
        · exact absurd (afterArrange_mem _ _ _ _ _ _ h) (by simp)
        · exact absurd h (by simp)
      · simp only [List.mem_append] at h
        rcases h with h | h
        · exact absurd (afterArrange_mem _ _ _ _ _ _ h) (by simp)
        · rcases givenScope_mem _ _ _ _ _ h with h | h | ⟨gr, h⟩ | ⟨b1, tc1, h⟩
          · exact ⟨_, by simpa using h⟩
          · exact absurd h (by simp)
          · exact absurd h (by simp)
          · exact absurd h (coreTest_scopeGiven_not_mem _ _ _ _ _)
  · exfalso
    simp only [List.mem_append] at h
    rcases h with (h | h) | h
    · exact absurd (afterArrange_mem _ _ _ _ _ _ h) (by simp)
    · exact absurd (afterGivenDispatch_mem _ _ _ _ h) (by simp)
    · exact absurd h (coreTest_scopeGiven_not_mem _ _ _ _ _)

theorem replay_no_scopeGiven {T R : Type} (b : Lifecycle T R) (tti : Int) (tc : T)
    (p : String) (hgp : hasGivenPhase b = false) (s : String) :
    Event.scopeGiven s ∉ (replay b tti tc p).1 := by
  intro h
  simp only [replay] at h
  rw [if_neg (by simp [hgp])] at h
  simp only [List.mem_append] at h
  rcases h with (h | h) | h
  · exact absurd (afterArrange_mem _ _ _ _ _ _ h) (by simp)
  · exact absurd (afterGivenDispatch_mem _ _ _ _ h) (by simp)
  · exact absurd h (coreTest_scopeGiven_not_mem _ _ _ _ _)

theorem replay_scopeWhen_given {T R : Type} (b : Lifecycle T R) (tti : Int) (tc : T)
    (p s : String) (hgp : hasGivenPhase b = true)
    (h : Event.scopeWhen s ∈ (replay b tti tc p).1) :
    ∃ w, s = "when " ++ w := by
  have hw : ∀ (b1 : Lifecycle T R) (tc1 : T) (pfx : String),
      Event.scopeWhen s ∈ (coreTest b1 tc1 pfx true).1 → ∃ w, s = "when " ++ w := by
    intro b1 tc1 pfx hmem
    have hs := coreTest_scopeWhen_eq b1 tc1 pfx true s hmem
    rw [coreWhenStr] at hs
    simp only [Bool.true_eq_false, and_false, if_false] at hs
    exact ⟨_, hs⟩
  simp only [replay] at h
  rw [if_pos hgp] at h
  split at h
  · rename_i ar harr
    split at h
    · exfalso
      simp only [List.mem_cons, List.mem_append, List.mem_singleton] at h
      rcases h with h | h | h
      · exact absurd h (by simp)
      · exact absurd (afterArrange_mem _ _ _ _ _ _ h) (by simp)
      · exact absurd h (by simp)
    · split at h
      · exfalso
        simp only [List.mem_cons, List.mem_append, List.mem_singleton] at h
        rcases h with h | h | h
        · exact absurd h (by simp)
        · exact absurd (afterArrange_mem _ _ _ _ _ _ h) (by simp)
        · exact absurd h (by simp)
      · simp only [List.mem_cons, List.mem_append] at h
        rcases h with h | h | h
        · exact absurd h (by simp)
        · exact absurd (afterArrange_mem _ _ _ _ _ _ h) (by simp)
        · rcases givenScope_mem _ _ _ _ _ h with h | h | ⟨gr, h⟩ | ⟨b1, tc1, h⟩
          · exact absurd h (by simp)
          · exact absurd h (by simp)
          · exact absurd h (by simp)
          · exact hw b1 tc1 _ h
  · split at h
    · exfalso
      simp only [List.mem_append, List.mem_singleton] at h
      rcases h with h | h
      · exact absurd (afterArrange_mem _ _ _ _ _ _ h) (by simp)
      · exact absurd h (by simp)
    · simp only [List.mem_append] at h
      rcases h with h | h
      · exact absurd (afterArrange_mem _ _ _ _ _ _ h) (by simp)
      · rcases givenScope_mem _ _ _ _ _ h with h | h | ⟨gr, h⟩ | ⟨b1, tc1, h⟩
        · exact absurd h (by simp)
        · exact absurd h (by simp)
        · exact absurd h (by simp)
        · exact hw b1 tc1 _ h

theorem replay_scopeWhen_noGiven {T R : Type} (b : Lifecycle T R) (tti : Int) (tc : T)
    (p s : String) (hgp : hasGivenPhase b = false)
    (h : Event.scopeWhen s ∈ (replay b tti tc p).1) :
    List.IsPrefix ((composePfx tti p ++ "when ").data) s.data := by
  simp only [replay] at h
  rw [if_neg (by simp [hgp])] at h
  simp only [List.mem_append] at h
  rcases h with (h | h) | h
  · exact absurd (afterArrange_mem _ _ _ _ _ _ h) (by simp)
  · exact absurd (afterGivenDispatch_mem _ _ _ _ h) (by simp)
  · have hs := coreTest_scopeWhen_eq _ _ _ _ _ h
    rw [coreWhenStr] at hs
    by_cases hp : composePfx tti p = ""
    · rw [if_neg (by simp [hp])] at hs
      rw [hs, hp, String.data_append, String.data_append]
      simp
    · rw [if_pos ⟨hp, rfl⟩] at hs
      rw [hs, String.data_append, String.data_append, String.data_append]
      simp [List.append_assoc]

/-!
Concrete configurations used to instantiate the theorems.
-/

/-- A minimal well-configured lifecycle: `When="w"`, `Then="t"`, Act and
Assert present, nothing else. -/
def cfgMin : Lifecycle Nat Nat :=
  { Given := "", When := "w", Then := "t", hooks := noHooks Nat Nat, TC := 0,
    CloneTC := none, Variants := none, Arrange := none, Describe := none,
    Act := some (fun _ => 0), Assert := some (fun _ => ()) }

/-- `cfgMin` with a single variant of Kind `"k"`. -/
def cfgC1 : Lifecycle Nat Nat :=
  { cfgMin with Variants := some (fun _ => [⟨0, "k", false, false⟩]) }

/-- All four hooks configured (as identity functions). -/
def allHooks : Hooks Nat Nat := ⟨some id, some id, some id, some id⟩

/-- An Arrange function returning the label `"ctx"` and a non-nil setup
callback. -/
def arCtx : ArrangeIn Nat Nat → ArrangeRet Nat Nat := fun cfg => ⟨cfg, "ctx", some (fun x => x)⟩

/-- `cfgMin` with all four hooks and `arCtx` as its Arrange function. -/
def cfgC2 : Lifecycle Nat Nat := { cfgMin with hooks := allHooks, Arrange := some arCtx }

/-- An Arrange function returning the label `"lbl"` and a nil setup callback. -/
def arNilGiven : ArrangeIn Nat Nat → ArrangeRet Nat Nat := fun cfg => ⟨cfg, "lbl", none⟩

/-- `cfgMin` with `arNilGiven` as its Arrange function. -/
def cfgNilGiven : Lifecycle Nat Nat := { cfgMin with Arrange := some arNilGiven }

/-- An AfterArrange hook that sets the test case to 99. -/
def hk99 : AfterArrange Nat → AfterArrange Nat := fun o => { o with TC := 99 }

/-- An Arrange function that installs `hk99` as the AfterArrange hook and
returns the label `"lbl"` with a nil setup callback. -/
def arNilGivenHook : ArrangeIn Nat Nat → ArrangeRet Nat Nat :=
  fun cfg => ⟨{ cfg with Hooks := { cfg.Hooks with AfterArrange := some hk99 } }, "lbl", none⟩

/-- `cfgMin` with `arNilGivenHook` as its Arrange function. -/
def cfgNilGivenHook : Lifecycle Nat Nat := { cfgMin with Arrange := some arNilGivenHook }

/-!
Claim C7.
-/

/-- Claim C7: a variant entry with `SkipTC` set contributes no events at all
to the walk (no scope activity, no failure, no replay, hence no clone), yet
the entries after it are enumerated starting at `pre.length + 1`, counting
the skipped entry. -/
theorem skipTC_advances_index {T R : Type} (b : Lifecycle T R) (tti : Int)
    (pre post : List (TestVariant T)) (v : TestVariant T) (h : v.SkipTC = true) :
    walkVariantsFrom b tti 0 (pre ++ v :: post) =
      walkVariantsFrom b tti 0 pre ++ walkVariantsFrom b tti (pre.length + 1) post := by
  rw [walkVariantsFrom_append]
  simp [walkVariantsFrom, h, Nat.add_comm]

/-- Claim C7 witness: a skipped first entry contributes nothing, and the
empty-Kind entry after it is reported at index `1`, not `0`. -/
theorem skipTC_advances_index_witness :
    walkVariantsFrom cfgMin (-1) 0
        ([] ++ (⟨0, "sk", true, false⟩ : TestVariant Nat) :: [⟨0, "", false, false⟩]) =
      walkVariantsFrom cfgMin (-1) 0 [] ++ walkVariantsFrom cfgMin (-1) 1 [⟨0, "", false, false⟩] ∧
    walkVariantsFrom cfgMin (-1) 1 [(⟨0, "", false, false⟩ : TestVariant Nat)] =
      [Event.hardFail (variantKindMsg 1)] :=
  ⟨skipTC_advances_index cfgMin (-1) [] [⟨0, "", false, false⟩] ⟨0, "sk", true, false⟩ rfl,
   by decide⟩

/-!
Claim C6.
-/

/-- Claim C6: a non-skipped variant entry with empty Kind contributes exactly
one hard failure, whose message carries the entry's zero-based enumeration
index (counting every earlier entry, skipped or not), and the walk continues
with the entries after it. -/
theorem emptyKind_indexed_failure {T R : Type} (b : Lifecycle T R) (tti : Int)
    (pre post : List (TestVariant T)) (v : TestVariant T)
    (h1 : v.SkipTC = false) (h2 : v.Kind = "") :
    walkVariantsFrom b tti 0 (pre ++ v :: post) =
      walkVariantsFrom b tti 0 pre ++
        Event.hardFail (variantKindMsg pre.length) ::
          walkVariantsFrom b tti (pre.length + 1) post := by
  rw [walkVariantsFrom_append]
  simp [walkVariantsFrom, h1, h2, Nat.add_comm]

/-- Claim C6 witness: after one skipped entry, an empty-Kind entry is
reported at index 1 with the exact configuration-error message, and a later
well-formed variant is still replayed (its when-scope opens). -/
theorem emptyKind_indexed_failure_witness :
    walkVariantsFrom cfgMin (-1) 0
        ([⟨0, "sk", true, false⟩] ++ (⟨0, "", false, false⟩ : TestVariant Nat) ::
          [⟨0, "k2", false, false⟩]) =
      walkVariantsFrom cfgMin (-1) 0 [⟨0, "sk", true, false⟩] ++
        Event.hardFail (variantKindMsg 1) ::
          walkVariantsFrom cfgMin (-1) 2 [⟨0, "k2", false, false⟩] ∧
    variantKindMsg 1 = "BDD configuration error: test case variant at index 1 has no Kind detail" ∧
    Event.scopeWhen ("k2/when w") ∈
      walkVariantsFrom cfgMin (-1) 2 [(⟨0, "k2", false, false⟩ : TestVariant Nat)] :=
  ⟨emptyKind_indexed_failure cfgMin (-1) [⟨0, "sk", true, false⟩] [⟨0, "k2", false, false⟩]
      ⟨0, "", false, false⟩ rfl rfl,
   by decide, by decide⟩

/-!
Claim C1. The claim states that variant replays use the variant's Kind as
the naming prefix with the table-test index omitted. The code composes the
index into the prefix for variant replays exactly as for the base replay,
so the index is not omitted: with `NewI` ordinal 0 and Kind `"k"` the
variant's when-scope is named `"0/k/when w"`, not `"k/when w"`.
-/

/-- Claim C1 counterexample: with ordinal 0 and a variant of Kind `"k"`, the
variant replay opens the scope `"0/k/when w"` — the decimal index appears —
and no scope named `"k/when w"` (Kind alone as prefix) is ever opened. -/
theorem variant_scope_carries_index :
    Event.scopeWhen ("0/k/when w") ∈ (newI cfgC1 0).trace ∧
    Event.scopeWhen ("k/when w") ∉ (newI cfgC1 0).trace := by
  decide

/-- Claim C1 amended: a non-skipped variant with non-empty Kind is replayed
with the variant's Kind as the raw naming prefix, which the replay composes
with the table-test index: for an ordinal `tti ≥ 0` the effective scope
prefix is `"<tti>/<Kind>/"`, so the decimal index appears in variant scope
names rather than being omitted. -/
theorem variant_uses_kind_and_index {T R : Type} (b : Lifecycle T R) (tti : Int)
    (i : Nat) (v : TestVariant T) (rest : List (TestVariant T))
    (h1 : v.SkipTC = false) (h2 : v.Kind ≠ "") (h3 : 0 ≤ tti) :
    walkVariantsFrom b tti i (v :: rest) =
      (replay b tti (variantTC b v) v.Kind).1 ++ walkVariantsFrom b tti (i + 1) rest ∧
    composePfx tti v.Kind = toString tti ++ "/" ++ v.Kind ++ "/" := by
  constructor
  · simp [walkVariantsFrom, h1, h2]
  · unfold composePfx
    simp only [h3, if_true, h2, if_neg]
    have hne : toString tti ++ "/" ++ v.Kind ≠ "" := by
      intro hcontra
      have := congrArg String.length hcontra
      simp [String.length_append] at this
      exact absurd this.1.2 (by decide)
    simp [hne]

/-- Claim C1 amended witness: concrete instantiation at ordinal 2 and Kind
`"k"`: the composed prefix is `"2/k/"` and the walk is the replay of that
variant. -/
theorem variant_uses_kind_and_index_witness :
    walkVariantsFrom cfgC1 2 0 [(⟨0, "k", false, false⟩ : TestVariant Nat)] =
      (replay cfgC1 2 (variantTC cfgC1 ⟨0, "k", false, false⟩) "k").1 ++
        walkVariantsFrom cfgC1 2 1 [] ∧
    composePfx 2 "k" = toString (2 : Int) ++ "/" ++ "k" ++ "/" :=
  variant_uses_kind_and_index cfgC1 2 0 ⟨0, "k", false, false⟩ [] rfl (by decide) (by decide)

/-!
Claim C8.
-/

/-- Variant generator used by the Claim C8 witness. -/
def vf8 : Nat → List (TestVariant Nat) := fun t => [⟨t, "v", false, false⟩]

/-- A lifecycle whose AfterAct hook mutates the replay's test case from 7 to
42; the stored `TC` stays 7. -/
def cfg8 : Lifecycle Nat Nat :=
  { cfgMin with
      TC := 7,
      hooks := { noHooks Nat Nat with AfterAct := some (fun o => ⟨o.TC + 35, o.Result⟩) },
      Variants := some vf8 }

/-- Claim C8: the value handed to the `Variants` generator is exactly the
descriptor's `TC` as captured before the base replay: the base replay runs
on its own (possibly `CloneTC`-cloned) copy `baseTC b`, whatever final
test-case value that replay produces is reported separately, and the
generator's seed is the untouched snapshot. -/
theorem variants_seed_snapshot {T R : Type} (b : Lifecycle T R) (tti : Int)
    (vf : T → List (TestVariant T)) (h : b.Variants = some vf) :
    (newI b tti).variantsSeed = some b.TC ∧
    (newI b tti).trace = (replay b tti (baseTC b) "").1 ++ walkVariantsFrom b tti 0 (vf b.TC) ∧
    (newI b tti).baseFinalTC = (replay b tti (baseTC b) "").2 := by
  unfold newI
  rw [h]
  exact ⟨rfl, rfl, rfl⟩

/-- Claim C8 witness: the base replay of `cfg8` mutates its working copy to
42 (visible in `baseFinalTC`), yet the variant generator is seeded with the
untouched snapshot 7. -/
theorem variants_seed_snapshot_witness :
    (newI cfg8 (-1)).variantsSeed = some 7 ∧ (newI cfg8 (-1)).baseFinalTC = 42 ∧
    cfg8.TC = 7 :=
  ⟨(variants_seed_snapshot cfg8 (-1) vf8 rfl).1, by decide, by decide⟩

/-!
Claim C9.
-/

/-- Claim C9: the `GWT` builder panics (modelled as `Except.error`) exactly
when one of its construction-time invariants is violated: non-nil given
function with empty given label, empty when label, nil when function, empty
then label, or nil then function. For well-formed inputs it returns a
descriptor carrying the given labels and functions. The `WT` builder is
exactly `GWT` with an empty given label and a nil given function. -/
theorem gwt_wt_construction {T R : Type} (tc : T) (given : String)
    (givenF : Option (T → T)) (whn : String) (whenF : Option (T → R))
    (thn : String) (thenF : Option (T → R → Unit)) :
    (isErr (GWT tc given givenF whn whenF thn thenF) = true ↔
      ((givenF.isSome = true ∧ given = "") ∨ whn = "" ∨ whenF = none ∨ thn = "" ∨
        thenF = none)) ∧
    WT tc whn whenF thn thenF = GWT tc "" none whn whenF thn thenF ∧
    (¬ ((givenF.isSome = true ∧ given = "") ∨ whn = "" ∨ whenF = none ∨ thn = "" ∨
        thenF = none) →
      ∃ l, GWT tc given givenF whn whenF thn thenF = Except.ok l ∧
        l.TC = tc ∧ l.Given = given ∧ l.When = whn ∧ l.Then = thn ∧ l.Act = whenF ∧
        l.Arrange.isSome = givenF.isSome ∧ l.Variants = none ∧ l.CloneTC = none) := by
  refine ⟨?_, rfl, ?_⟩
  · unfold GWT
    split_ifs with hg hw hwf ht htf
    · simp [isErr]
      exact Or.inl hg
    · simp [isErr, hw]
    · simp only [isErr, true_iff]
      exact Or.inr (Or.inr (Or.inl (Option.isNone_iff_eq_none.mp hwf)))
    · simp [isErr, ht]
    · simp only [isErr, true_iff]
      exact Or.inr (Or.inr (Or.inr (Or.inr (Option.isNone_iff_eq_none.mp htf))))
    · simp only [isErr, Bool.false_eq_true, false_iff]
      intro hc
      rcases hc with h | h | h | h | h
      · exact hg h
      · exact hw h
      · exact hwf (Option.isNone_iff_eq_none.mpr h)
      · exact ht h
      · exact htf (Option.isNone_iff_eq_none.mpr h)
  · intro hok
    unfold GWT
    rw [if_neg, if_neg, if_neg, if_neg, if_neg]
    · refine ⟨_, rfl, rfl, rfl, rfl, rfl, rfl, ?_, rfl, rfl⟩
      cases givenF <;> simp
    · intro hc
      exact hok (Or.inr (Or.inr (Or.inr (Or.inr (Option.isNone_iff_eq_none.mp hc)))))
    · intro hc
      exact hok (Or.inr (Or.inr (Or.inr (Or.inl hc))))
    · intro hc
      exact hok (Or.inr (Or.inr (Or.inl (Option.isNone_iff_eq_none.mp hc))))
    · intro hc
      exact hok (Or.inr (Or.inl hc))
    · intro hc
      exact hok (Or.inl hc)

/-- Claim C9 witness: an empty given label with a non-nil given function is
rejected at construction time. -/
theorem gwt_wt_construction_witness :
    isErr (GWT (0 : Nat) "" (some (fun x => x)) "w" (some (fun _ => (0 : Nat))) "t"
      (some (fun _ _ => ()))) = true :=
  (gwt_wt_construction (0 : Nat) "" (some (fun x => x)) "w" (some (fun _ => (0 : Nat))) "t"
      (some (fun _ _ => ()))).1.mpr (Or.inl ⟨rfl, rfl⟩)

/-!
Claims C4 and C10: the nil-given-function failure path.
-/

/-- Claim C4: when Arrange is configured and returns a nil setup callback,
the replay records exactly one hard failure — the nil-given-function message
carrying the composed prefix — no soft failure, opens no scope at all (in
particular no given-scope), and runs none of the later phases: no Describe,
no given setup, no Act, no Assert. -/
theorem nilGiven_hard_failure {T R : Type} (b : Lifecycle T R) (tti : Int) (tc : T)
    (p : String) (ar : ArrangeIn T R → ArrangeRet T R)
    (h1 : b.Arrange = some ar) (h2 : (ar (arrangeInput b tc)).givenFn = none) :
    hardMsgs (replay b tti tc p).1 = [nilGivenMsg (composePfx tti p)] ∧
    softMsgs (replay b tti tc p).1 = [] ∧
    scopeNames (replay b tti tc p).1 = [] ∧
    Event.describeRun ∉ (replay b tti tc p).1 ∧
    Event.givenSetupRun ∉ (replay b tti tc p).1 ∧
    Event.actRun ∉ (replay b tti tc p).1 ∧
    Event.assertRun ∉ (replay b tti tc p).1 := by
  have hgp : hasGivenPhase b = true := by simp [hasGivenPhase, h1]
  rcases hh : (arrangeApply b (ar (arrangeInput b tc))).hooks.AfterArrange with _ | hk <;>
    simp [replay, hgp, h1, h2, afterArrange, hh, hardMsgs, softMsgs, scopeNames]

/-- Claim C4 witness: an Arrange returning the label `"lbl"` and a nil
callback makes the replay fail hard with the nil-given-function message,
with no soft failures and no scopes. -/
theorem nilGiven_hard_failure_witness :
    hardMsgs (replay cfgNilGiven (-1) 0 "").1 = [nilGivenMsg (composePfx (-1) "")] ∧
    softMsgs (replay cfgNilGiven (-1) 0 "").1 = [] ∧
    scopeNames (replay cfgNilGiven (-1) 0 "").1 = [] :=
  have h := nilGiven_hard_failure cfgNilGiven (-1) 0 "" arNilGiven rfl rfl
  ⟨h.1, h.2.1, h.2.2.1⟩

/-- Claim C10: on the nil-setup-callback failure path, when the AfterArrange
hook is configured (in the state Arrange left behind), the trace is exactly
Arrange, then the AfterArrange dispatch with `ArrangeRan = true`,
`NilGivenFunc = true`, and `EmptyGivenString` reflecting whether the
returned label is empty, then the hard failure; the AfterGiven hook is never
dispatched, and the hook's mutation of the test case is the replay's final
test-case value (it truly ran, before the failure). -/
theorem nilGiven_dispatches_afterArrange {T R : Type} (b : Lifecycle T R) (tti : Int)
    (tc : T) (p : String) (ar : ArrangeIn T R → ArrangeRet T R)
    (hk : AfterArrange T → AfterArrange T)
    (h1 : b.Arrange = some ar) (h2 : (ar (arrangeInput b tc)).givenFn = none)
    (h3 : (ar (arrangeInput b tc)).cfg.Hooks.AfterArrange = some hk) :
    (replay b tti tc p).1 =
      [Event.arrangeRun,
       Event.hookAfterArrange true true (decide ((ar (arrangeInput b tc)).given = "")),
       Event.hardFail (nilGivenMsg (composePfx tti p))] ∧
    Event.hookAfterGiven true ∉ (replay b tti tc p).1 ∧
    Event.hookAfterGiven false ∉ (replay b tti tc p).1 ∧
    (replay b tti tc p).2 =
      (hk ⟨(ar (arrangeInput b tc)).cfg.TC, true, true,
            decide ((ar (arrangeInput b tc)).given = "")⟩).TC := by
  have hgp : hasGivenPhase b = true := by simp [hasGivenPhase, h1]
  have hh : (arrangeApply b (ar (arrangeInput b tc))).hooks.AfterArrange = some hk := h3
  have hgiven : (arrangeApply b (ar (arrangeInput b tc))).Given =
      (ar (arrangeInput b tc)).given := rfl
  simp [replay, hgp, h1, h2, afterArrange, hh, hgiven]

/-- Claim C10 witness: for a concrete Arrange that installs an AfterArrange
hook mutating the test case to 99 and returns a non-empty label with a nil
callback, the trace is exactly arrange, hook dispatch with flags
`(true, true, false)`, hard failure; and the final test case is 99. -/
theorem nilGiven_dispatches_afterArrange_witness :
    (replay cfgNilGivenHook (-1) 0 "").1 =
      [Event.arrangeRun, Event.hookAfterArrange true true false,
       Event.hardFail (nilGivenMsg (composePfx (-1) ""))] ∧
    Event.hookAfterGiven true ∉ (replay cfgNilGivenHook (-1) 0 "").1 ∧
    Event.hookAfterGiven false ∉ (replay cfgNilGivenHook (-1) 0 "").1 ∧
    (replay cfgNilGivenHook (-1) 0 "").2 = 99 :=
  nilGiven_dispatches_afterArrange cfgNilGivenHook (-1) 0 "" arNilGivenHook hk99 rfl rfl rfl

/-!
Claim C3: the validation gate.
-/

/-- A lifecycle with nothing configured: empty `When`/`Then`, nil Act and
Assert. -/
def cfgB : Lifecycle Nat Nat :=
  { Given := "", When := "", Then := "", hooks := noHooks Nat Nat, TC := 0,
    CloneTC := none, Variants := none, Arrange := none, Describe := none,
    Act := none, Assert := none }

/-- Claim C3: after Describe, the gate checks When, Then, Act, Assert in
that order; each violated check records exactly one soft failure (in that
fixed order) and checking continues; when any check failed, exactly one
hard failure with the not-configured message (carrying the composed prefix)
is recorded and no scope is opened from the gate onward. With all four
violated — `cfgB` — the full run is exactly four soft failures in order
followed by the single hard failure, with zero scopes opened. -/
theorem validation_gate :
    (∀ (T R : Type) (b : Lifecycle T R) (tc : T) (p : String) (hg : Bool),
      ((describeStep b tc).1.When = "" ∨ (describeStep b tc).1.Then = "" ∨
        (describeStep b tc).1.Act.isNone = true ∨
        (describeStep b tc).1.Assert.isNone = true) →
      softMsgs (coreTest b tc p hg).1 =
        ((if (describeStep b tc).1.When = "" then [whenEmptyMsg] else []) ++
         (if (describeStep b tc).1.Then = "" then [thenEmptyMsg] else []) ++
         (if (describeStep b tc).1.Act.isNone then [actNilMsg] else []) ++
         (if (describeStep b tc).1.Assert.isNone then [assertNilMsg] else [])) ∧
      hardMsgs (coreTest b tc p hg).1 = [notConfiguredMsg p] ∧
      scopeNames (coreTest b tc p hg).1 = []) ∧
    (newI cfgB (-1)).trace =
      [Event.softFail whenEmptyMsg, Event.softFail thenEmptyMsg, Event.softFail actNilMsg,
       Event.softFail assertNilMsg, Event.hardFail (notConfiguredMsg "")] := by
  constructor
  · intro T R b tc p hg h
    simp only [coreTest, if_pos h]
    refine ⟨?_, ?_, ?_⟩ <;>
      rcases hD : b.Describe with _ | d <;>
        simp [describeStep, hD, gateSoftEvs, softMsgs, hardMsgs, scopeNames,
          List.filterMap_append] <;>
          split_ifs <;> simp
  · decide

/-- Claim C3 witness: the gate instantiated at `cfgB` (all four checks
violated): the soft-failure list is exactly the four messages in order, the
hard-failure list is exactly the not-configured message, and no scope
opens. -/
theorem validation_gate_witness :
    softMsgs (coreTest cfgB 0 "" false).1 =
      ([whenEmptyMsg] ++ [thenEmptyMsg] ++ [actNilMsg] ++ [assertNilMsg]) ∧
    hardMsgs (coreTest cfgB 0 "" false).1 = [notConfiguredMsg ""] ∧
    scopeNames (coreTest cfgB 0 "" false).1 = [] := by
  have h := validation_gate.1 Nat Nat cfgB 0 "" false (Or.inl rfl)
  simpa using h

/-!
Claim C2: fixed phase ordering, and Scenario C.
-/

/-- Claim C2: for every replay the phases occur only in the fixed order
Arrange, AfterArrange, given setup, AfterGiven, Describe, Act, AfterAct,
Assert, AfterAssert (the phase projection of any replay trace is a sublist
of the canonical order, so no reordering is possible); and in Scenario C —
Arrange returning label `"ctx"` with a non-nil callback, `When="w"`,
`Then="t"`, all four hooks configured — the trace is exactly: arrange,
AfterArrange, scope `"given ctx"`, given setup, AfterGiven, scope
`"when w"`, act, AfterAct, scope `"then t"`, assert, AfterAssert. -/
theorem phase_order_fixed :
    (∀ (T R : Type) (b : Lifecycle T R) (tti : Int) (tc : T) (p : String),
      List.Sublist (phasesOf (replay b tti tc p).1) canonicalPhases) ∧
    (replay cfgC2 (-1) 0 "").1 =
      [Event.arrangeRun, Event.hookAfterArrange true false false,
       Event.scopeGiven ("given ctx"), Event.givenSetupRun, Event.hookAfterGiven true,
       Event.scopeWhen ("when w"), Event.actRun, Event.hookAfterAct,
       Event.scopeThen ("then t"), Event.assertRun, Event.hookAfterAssert] :=
  ⟨fun _ _ b tti tc p => replay_phases b tti tc p, by decide⟩

/-!
Claim C5: given-phase determination and scope naming.
-/

/-- Claim C5: with no Arrange and an empty Given label at the start of the
replay, no given-scope is ever opened and every when-scope name starts with
the composed prefix followed directly by `"when "`; conversely, when a
given phase exists, every when-scope name starts with `"when "` (carrying
no prefix) and every given-scope name starts with the composed prefix. -/
theorem given_phase_scoping {T R : Type} (b : Lifecycle T R) (tti : Int) (tc : T)
    (p : String) :
    (b.Arrange = none → b.Given = "" →
      (∀ s, Event.scopeGiven s ∉ (replay b tti tc p).1) ∧
      (∀ s, Event.scopeWhen s ∈ (replay b tti tc p).1 →
        List.IsPrefix ((composePfx tti p ++ "when ").data) s.data)) ∧
    (hasGivenPhase b = true →
      (∀ s, Event.scopeWhen s ∈ (replay b tti tc p).1 →
        List.IsPrefix (("when ") : String).data s.data) ∧
      (∀ s, Event.scopeGiven s ∈ (replay b tti tc p).1 →
        List.IsPrefix ((composePfx tti p).data) s.data)) := by
  constructor
  · intro hA hG
    have hgp : hasGivenPhase b = false := by simp [hasGivenPhase, hA, hG]
    exact ⟨replay_no_scopeGiven b tti tc p hgp,
      fun s hs => replay_scopeWhen_noGiven b tti tc p s hgp hs⟩
  · intro hgp
    constructor
    · intro s hs
      obtain ⟨w, hw⟩ := replay_scopeWhen_given b tti tc p s hgp hs
      rw [hw, String.data_append]
      exact List.prefix_append _ _
    · intro s hs
      obtain ⟨g, hg⟩ := replay_scopeGiven_mem b tti tc p s hs
      rw [hg, String.data_append, String.data_append, List.append_assoc]
      exact List.prefix_append _ _

/-- Claim C5 witness: with `cfgMin` (no Arrange, empty Given) at ordinal 0,
the when-scope name `"0/when w"` starts with the composed prefix plus
`"when "`, and no scope named `"given g"` opens; with `cfgC2` (given phase
present) the when-scope name `"when w"` starts with `"when "` bare. -/
theorem given_phase_scoping_witness :
    List.IsPrefix ((composePfx 0 "" ++ "when ").data) (("0/when w") : String).data ∧
    Event.scopeGiven ("given g") ∉ (replay cfgMin 0 0 "").1 ∧
    List.IsPrefix (("when ") : String).data (("when w") : String).data :=
  ⟨((given_phase_scoping cfgMin 0 0 "").1 rfl rfl).2 "0/when w" (by decide),
   ((given_phase_scoping cfgMin 0 0 "").1 rfl rfl).1 "given g",
   ((given_phase_scoping cfgC2 0 0 "").2 rfl).1 "when w" (by decide)⟩

end Tbdd
